import Mathlib

/-!
A shallow embedding of the G-code tool-switching engine of `CMYK.py`
(class `GCodeToolSwitcher` together with the processing entry point
`App.process_gcode`).  Document lines are modelled as `List Char`, and
ratio-pattern entries (Python floats) are modelled as rationals; the
planner only observes a count through `int(count)` and `count % 1 > 0`,
and both observations agree between floats and the rationals they denote.
-/

namespace CMYK

/-! ## Tool Sequence Planner (`calculate_tool_distribution`) -/

/-- Number of iterations of the source's `for _ in range(int(count))`:
Python's `int` truncates toward zero and `range` of a non-positive bound is
empty, so for every rational `count` the number of iterations equals
`⌊count⌋.toNat` (for negative `count` both truncation and floor yield a
non-positive bound, hence zero iterations). -/
def wholeReps (count : ℚ) : ℕ := (⌊count⌋).toNat

/-- The source's test `count % 1 > 0`: Python's `%` is a floored remainder,
so `count % 1` is exactly the fractional part `count - ⌊count⌋`. -/
def fracTest (count : ℚ) : Prop := 0 < Int.fract count

instance (count : ℚ) : Decidable (fracTest count) := by
  unfold fracTest; infer_instance

/-- The inner loop `for _ in range(int(count))` of
`calculate_tool_distribution`, which appends `idx` while the sequence is
shorter than `total` and breaks otherwise. -/
def repeatAppend (total idx : ℕ) : ℕ → List ℕ → List ℕ
  | 0, acc => acc
  | m + 1, acc =>
      if acc.length < total then repeatAppend total idx m (acc ++ [idx]) else acc

/-- Processing of one `(tool_idx, count)` entry of the sweep: the
whole-count repetitions followed by the conditional fractional append
(`if count % 1 > 0 and len(tool_sequence) < total_layers`). -/
def appendTool (total idx : ℕ) (count : ℚ) (acc : List ℕ) : List ℕ :=
  let acc1 := repeatAppend total idx (wholeReps count) acc
  if fracTest count ∧ acc1.length < total then acc1 ++ [idx] else acc1

/-- One sweep `for tool_idx, count in enumerate(ratio_pattern)` of
`calculate_tool_distribution`, including the early
`if len(tool_sequence) >= total_layers: break`. -/
def sweepGo (total : ℕ) : List (ℕ × ℚ) → List ℕ → List ℕ
  | [], acc => acc
  | e :: rest, acc =>
      let acc1 := appendTool total e.1 e.2 acc
      if total ≤ acc1.length then acc1 else sweepGo total rest acc1

/-- The `while len(tool_sequence) < total_layers` loop of
`calculate_tool_distribution`, with explicit fuel.  `total_layers` rounds of
the loop always suffice whenever some pattern entry is positive, because
every sweep then appends at least one element (see `calcGo_eq`). -/
def calcGo (total : ℕ) (ratio_pattern : List ℚ) : ℕ → List ℕ → List ℕ
  | 0, acc => acc
  | fuel + 1, acc =>
      if acc.length < total then
        calcGo total ratio_pattern fuel (sweepGo total ratio_pattern.enum acc)
      else acc

/-- `GCodeToolSwitcher.calculate_tool_distribution`. -/
def calculate_tool_distribution (total_layers : ℕ) (ratio_pattern : List ℚ) : List ℕ :=
  calcGo total_layers ratio_pattern total_layers []

/-- Number of copies of a tool id appended for one pattern entry in one
untruncated sweep: `⌊count⌋` of them plus one extra when the fractional part
is nonzero. -/
def effCount (count : ℚ) : ℕ := wholeReps count + (if fracTest count then 1 else 0)

/-- One full untruncated sweep of the ratio pattern, as the spec describes
it: for each tool in index order, its id `⌊count⌋` times plus one extra
instance when `count` has a nonzero fractional part. -/
def sweepSpec (ratio_pattern : List ℚ) : List ℕ :=
  (ratio_pattern.enum.map (fun e => List.replicate (effCount e.2) e.1)).flatten

/-- The first `n` elements of the sweep repeated over and over
("repeat the full sweep until length N is reached, stopping the instant the
sequence reaches length N"). -/
def cycleTake (sw : List ℕ) (n : ℕ) : List ℕ :=
  (List.replicate n sw).flatten.take n

/-- The flattened replication lists contributed by a list of enumerated
pattern entries. -/
def sweepFlat (l : List (ℕ × ℚ)) : List ℕ :=
  (l.map (fun e => List.replicate (effCount e.2) e.1)).flatten

/-! ## Command Rewriter (`modify_gcode`): regular-form matchers

The source compiles five regular expressions over ASCII G-code text:
`park_pattern` (`P0\s+S1\s+L2\s+D0`), `pickup_pattern`
(`T(\d+)\s+S1\s+L0\s+D0`), `m104_pattern` (`M104\.1\s+T(\d+)`),
`tool_pattern` (`\bT(\d+)\s+S\d+\s+L\d+\s+D\d+`) and
`simple_tool_pattern` (`^T(\d+)\s*;`), plus the ad-hoc searches `P(\d+)`,
`Q(\d+)`, `S(\d+)` and `;.*$` inside the heater branch.  All of them are
deterministic: each `\d+`/`\s+` is followed by a character class disjoint
from it, so greedy maximal munch is exact.  `search` semantics is the
leftmost match. -/

/-- ASCII whitespace as matched by the regex class `\s`. -/
def isSpaceChar (c : Char) : Bool :=
  c == ' ' || c == '\t' || c == '\n' || c == '\r' || c == '\x0b' || c == '\x0c'

/-- ASCII word characters as matched by `\w`, used for `\b` boundaries. -/
def isWordChar (c : Char) : Bool := c.isAlphanum || c == '_'

/-- Value of a captured digit group under Python's `int`. -/
def digitsToNat (ds : List Char) : ℕ :=
  ds.foldl (fun n c => 10 * n + (c.toNat - Char.toNat '0')) 0

/-- Match a literal string at the current position, returning the rest. -/
def lit : List Char → List Char → Option (List Char)
  | [], l => some l
  | _ :: _, [] => none
  | p :: ps, c :: cs => if p = c then lit ps cs else none

/-- Match `\s+` (greedy) at the current position. -/
def spaces1 : List Char → Option (List Char)
  | [] => none
  | c :: cs =>
      if isSpaceChar c then some (cs.dropWhile isSpaceChar) else none

/-- Match `\d+` (greedy) at the current position, returning the digits and
the rest. -/
def digits1 (l : List Char) : Option (List Char × List Char) :=
  if (l.takeWhile Char.isDigit).isEmpty then none
  else some (l.takeWhile Char.isDigit, l.dropWhile Char.isDigit)

/-- `park_pattern` (`P0\s+S1\s+L2\s+D0`) matched at the current position. -/
def parkAt (l : List Char) : Bool :=
  (do
    let r1 ← lit "P0".toList l
    let r2 ← spaces1 r1
    let r3 ← lit "S1".toList r2
    let r4 ← spaces1 r3
    let r5 ← lit "L2".toList r4
    let r6 ← spaces1 r5
    let _ ← lit "D0".toList r6
    pure ()).isSome

/-- `park_pattern.search(line)`. -/
def parkSearch (l : List Char) : Bool := l.tails.any parkAt

/-- `pickup_pattern` (`T(\d+)\s+S1\s+L0\s+D0`) matched at the current
position; returns the captured tool id. -/
def pickupAt (l : List Char) : Option ℕ := do
  let r1 ← lit "T".toList l
  let (ds, r2) ← digits1 r1
  let r3 ← spaces1 r2
  let r4 ← lit "S1".toList r3
  let r5 ← spaces1 r4
  let r6 ← lit "L0".toList r5
  let r7 ← spaces1 r6
  let _ ← lit "D0".toList r7
  pure (digitsToNat ds)

/-- `pickup_pattern.search(line)` with the captured group as `int`. -/
def pickupSearch (l : List Char) : Option ℕ := l.tails.findSome? pickupAt

/-- `m104_pattern` (`M104\.1\s+T(\d+)`) matched at the current position. -/
def m104At (l : List Char) : Option ℕ := do
  let r1 ← lit "M104.1".toList l
  let r2 ← spaces1 r1
  let r3 ← lit "T".toList r2
  let (ds, _) ← digits1 r3
  pure (digitsToNat ds)

/-- `m104_pattern.search(line)` with the captured group as `int`. -/
def m104Search (l : List Char) : Option ℕ := l.tails.findSome? m104At

/-- The `\b` condition before a word character: start of string or a
non-word character before the current position. -/
def boundaryBefore : Option Char → Bool
  | none => true
  | some c => !(isWordChar c)

/-- `tool_pattern` without its leading `\b`
(`T(\d+)\s+S\d+\s+L\d+\s+D\d+`) matched at the current position. -/
def toolAt (l : List Char) : Option ℕ := do
  let r1 ← lit "T".toList l
  let (ds, r2) ← digits1 r1
  let r3 ← spaces1 r2
  let r4 ← lit "S".toList r3
  let (_, r5) ← digits1 r4
  let r6 ← spaces1 r5
  let r7 ← lit "L".toList r6
  let (_, r8) ← digits1 r7
  let r9 ← spaces1 r8
  let r10 ← lit "D".toList r9
  let _ ← digits1 r10
  pure (digitsToNat ds)

/-- Leftmost search that also tracks the character before each position,
for patterns with a leading `\b`. -/
def searchPrev (f : Option Char → List Char → Option ℕ) :
    Option Char → List Char → Option ℕ
  | prev, [] => f prev []
  | prev, c :: rest => (f prev (c :: rest)).orElse (fun _ => searchPrev f (some c) rest)

/-- `tool_pattern.search(line)` with the captured group as `int`. -/
def toolSearch (l : List Char) : Option ℕ :=
  searchPrev (fun prev t => if boundaryBefore prev then toolAt t else none) none l

/-- `simple_tool_pattern.search(line)`: the pattern is anchored (`^T(\d+)\s*;`),
so only the start of the line can match. -/
def simpleSearch (l : List Char) : Option ℕ := do
  let r1 ← lit "T".toList l
  let (ds, r2) ← digits1 r1
  let _ ← lit ";".toList (r2.dropWhile isSpaceChar)
  pure (digitsToNat ds)

/-- A one-letter-then-digits capture (`P(\d+)`, `Q(\d+)`, `S(\d+)`) matched
at the current position. -/
def paramAt (p : Char) (l : List Char) : Option (List Char) :=
  match l with
  | [] => none
  | c :: rest => if c = p then (digits1 rest).map Prod.fst else none

/-- `re.search(r'P(\d+)', line)` and friends, returning the digit text. -/
def paramSearch (p : Char) (l : List Char) : Option (List Char) :=
  l.tails.findSome? (paramAt p)

/-- `re.search(r';.*$', line).group(0)`: everything from the first `;` on
(lines never contain a newline, so `.*$` runs to the end). -/
def commentSearch : List Char → Option (List Char)
  | [] => none
  | c :: rest => if c = ';' then some (c :: rest) else commentSearch rest

/-- The replacement text `f'T{t}'`. -/
def tTok (t : ℕ) : List Char := 'T' :: (toString t).toList

/-- Scanner for `re.sub(r'T\d+', f'T{t}', line)`; the fuel only bounds the
recursion (the scanner consumes at least one character per step, so
`l.length` fuel is always enough). -/
def subAllGo (t : ℕ) : ℕ → List Char → List Char
  | 0, l => l
  | _ + 1, [] => []
  | fuel + 1, c :: rest =>
      if c = 'T' ∧ ¬ (rest.takeWhile Char.isDigit).isEmpty then
        tTok t ++ subAllGo t fuel (rest.dropWhile Char.isDigit)
      else c :: subAllGo t fuel rest

/-- `re.sub(r'T\d+', f'T{t}', line)`: scan left to right, replacing every
non-overlapping occurrence of `T` followed by one or more digits. -/
def subAllT (t : ℕ) (l : List Char) : List Char := subAllGo t l.length l

/-- The `\b` condition after the digit group: end of string or a non-word
character next. -/
def boundaryAfter : List Char → Bool
  | [] => true
  | c :: _ => !(isWordChar c)

/-- Scanner for `re.sub(r'\bT\d+\b', f'T{t}', line)`; `prev` is the
character before the current position in the original text, and the fuel
only bounds the recursion (at least one character is consumed per step). -/
def subWordGo (t : ℕ) : ℕ → Option Char → List Char → List Char
  | 0, _, l => l
  | _ + 1, _, [] => []
  | fuel + 1, prev, c :: rest =>
      if c = 'T' ∧ boundaryBefore prev ∧ ¬ (rest.takeWhile Char.isDigit).isEmpty
          ∧ boundaryAfter (rest.dropWhile Char.isDigit) then
        tTok t ++ subWordGo t fuel (some ((rest.takeWhile Char.isDigit).getLastD '0'))
          (rest.dropWhile Char.isDigit)
      else c :: subWordGo t fuel (some c) rest

/-- `re.sub(r'\bT\d+\b', f'T{t}', line)`. -/
def subWordT (t : ℕ) (l : List Char) : List Char := subWordGo t l.length none l

/-- `re.sub(r'^T\d+', f'T{t}', line)`: anchored, so at most the leading
token is replaced. -/
def subStartT (t : ℕ) (l : List Char) : List Char :=
  match l with
  | c :: rest =>
      if c = 'T' ∧ ¬ (rest.takeWhile Char.isDigit).isEmpty then
        tTok t ++ rest.dropWhile Char.isDigit
      else c :: rest
  | [] => []

/-! ## Command Rewriter (`modify_gcode`): per-line processing

`modify_gcode` iterates `for i, line in enumerate(modified_gcode)` where
`modified_gcode` starts as a copy of the input and only index `i` is
written during iteration `i`, so `line` is always the ORIGINAL input line;
every pattern search and every substitution in one iteration reads `line`,
and each firing branch overwrites `modified_gcode[i]` with a value computed
from `line`. -/

/-- Annotation `f"; {line} - skipped parking as T{ct} ({name}) is already active"`. -/
def annotPark (names : List (List Char)) (ct : ℕ) (line : List Char) : List Char :=
  "; ".toList ++ line ++ " - skipped parking as T".toList ++ (toString ct).toList
    ++ " (".toList ++ names.getD ct [] ++ ") is already active".toList

/-- Annotation `f"; {line} - skipped pickup as T{ct} ({name}) is already active"`. -/
def annotPickup (names : List (List Char)) (ct : ℕ) (line : List Char) : List Char :=
  "; ".toList ++ line ++ " - skipped pickup as T".toList ++ (toString ct).toList
    ++ " (".toList ++ names.getD ct [] ++ ") is already active".toList

/-- Annotation `f"; {line} - skipped as T{ct} ({name}) is already active"`. -/
def annotHeater (names : List (List Char)) (ct : ℕ) (line : List Char) : List Char :=
  "; ".toList ++ line ++ " - skipped as T".toList ++ (toString ct).toList
    ++ " (".toList ++ names.getD ct [] ++ ") is already active".toList

/-- The synthesized replacement command of the heater-preselect branch
(lines 90-101 of the source): `M104.1 T{ct} P{p} Q{q} S{s}` with P/Q/S taken
from the original line when present (defaults "120", P+ct+1, "210"),
followed by the original trailing comment when one exists and otherwise a
synthesized switch comment. -/
def heaterCommand (names : List (List Char)) (ct old : ℕ) (line : List Char) : List Char :=
  let p_value := (paramSearch 'P' line).getD "120".toList
  let q_value := (paramSearch 'Q' line).getD (toString (digitsToNat p_value + ct + 1)).toList
  let s_value := (paramSearch 'S' line).getD "210".toList
  let newCmd := "M104.1 T".toList ++ (toString ct).toList ++ " P".toList ++ p_value
    ++ " Q".toList ++ q_value ++ " S".toList ++ s_value
  match commentSearch line with
  | some cm => newCmd ++ [' '] ++ cm
  | none => newCmd ++ " ; switched from T".toList ++ (toString old).toList
      ++ " (".toList ++ names.getD old [] ++ ") to T".toList ++ (toString ct).toList
      ++ " (".toList ++ names.getD ct [] ++ ")".toList

/-- The pickup block of the loop body (source lines 73-84).  `.error` is a
`continue` (the annotated skip), `.ok` falls through to the heater block
with the current cell value and active tool. -/
def pickupStep (names : List (List Char)) (ct : ℕ) (act : Option ℕ)
    (m line : List Char) : Except (List Char × Option ℕ) (List Char × Option ℕ) :=
  match pickupSearch line with
  | none => .ok (m, act)
  | some tool_to_pickup =>
      if tool_to_pickup ≠ ct then .ok (subAllT ct line, some ct)
      else if act = some ct then .error (annotPickup names ct line, act)
      else .ok (m, some ct)

/-- The heater-preselect block of the loop body (source lines 85-107). -/
def heaterStep (names : List (List Char)) (ct : ℕ) (act : Option ℕ)
    (m line : List Char) : Except (List Char × Option ℕ) (List Char × Option ℕ) :=
  match m104Search line with
  | none => .ok (m, act)
  | some old_tool =>
      if old_tool ≠ ct then
        if act ≠ some ct then .ok (heaterCommand names ct old_tool line, some ct)
        else .error (annotHeater names ct line, act)
      else .ok (m, act)

/-- The generic tool-token block of the loop body (source lines 108-114). -/
def toolStep (ct : ℕ) (act : Option ℕ) (m line : List Char) :
    List Char × Option ℕ :=
  match toolSearch line with
  | none => (m, act)
  | some old_tool => if old_tool ≠ ct then (subWordT ct line, some ct) else (m, act)

/-- The leading tool-token block of the loop body (source lines 115-121). -/
def simpleStep (ct : ℕ) (act : Option ℕ) (m line : List Char) :
    List Char × Option ℕ :=
  match simpleSearch line with
  | none => (m, act)
  | some old_tool => if old_tool ≠ ct then (subStartT ct line, some ct) else (m, act)

/-- One iteration of the `modify_gcode` loop body for a line processed with
`current_tool = ct` (the `if current_tool is not None` branch): the park
check, then pickup, heater, generic and leading tool-token blocks, each
matching against and rewriting the original `line`. -/
def processLine (names : List (List Char)) (ct : ℕ) (act : Option ℕ)
    (line : List Char) : List Char × Option ℕ :=
  if parkSearch line = true ∧ act = some ct then (annotPark names ct line, act)
  else
    match pickupStep names ct act line line with
    | .error fin => fin
    | .ok (m1, a1) =>
        match heaterStep names ct a1 m1 line with
        | .error fin => fin
        | .ok (m2, a2) =>
            let (m3, a3) := toolStep ct a2 m2 line
            simpleStep ct a3 m3 line

/-- The per-pass rewrite state of `modify_gcode`. -/
structure RState where
  curLayer : ℤ
  curTool : Option ℕ
  act : Option ℕ
deriving DecidableEq, Repr

/-- The layer-boundary bookkeeping at the top of the loop body (source
lines 63-66): on a layer-marker index, advance `current_layer` and load the
planned tool when in range. -/
def layerUpdate (layer_positions tool_sequence : List ℕ) (i : ℕ) (s : RState) : RState :=
  if i ∈ layer_positions then
    let cl := s.curLayer + 1
    { curLayer := cl
      curTool :=
        if cl < (tool_sequence.length : ℤ) then some (tool_sequence.getD cl.toNat 0)
        else s.curTool
      act := s.act }
  else s

/-- One full iteration of the `modify_gcode` loop: the layer update, then
the line processing when `current_tool` is set. -/
def stepLine (names : List (List Char)) (layer_positions tool_sequence : List ℕ)
    (i : ℕ) (s : RState) (line : List Char) : List Char × RState :=
  let s1 := layerUpdate layer_positions tool_sequence i s
  match s1.curTool with
  | none => (line, s1)
  | some ct =>
      let r := processLine names ct s1.act line
      (r.1, { curLayer := s1.curLayer, curTool := s1.curTool, act := r.2 })

/-- The loop of `modify_gcode`, threading the index and state. -/
def modifyGo (names : List (List Char)) (layer_positions tool_sequence : List ℕ) :
    ℕ → RState → List (List Char) → List (List Char)
  | _, _, [] => []
  | i, s, line :: rest =>
      let r := stepLine names layer_positions tool_sequence i s line
      r.1 :: modifyGo names layer_positions tool_sequence (i + 1) r.2 rest

/-- `GCodeToolSwitcher.modify_gcode`: `current_layer` starts at `-1`, both
tools start unset. -/
def modify_gcode (names : List (List Char)) (layer_positions tool_sequence : List ℕ)
    (gcode_lines : List (List Char)) : List (List Char) :=
  modifyGo names layer_positions tool_sequence 0
    { curLayer := -1, curTool := none, act := none } gcode_lines

/-! ## Layer Locator and the processing entry points -/

/-- The layer marker `";LAYER_CHANGE"` (attribute `layer_markers`). -/
def layer_markers : List Char := ";LAYER_CHANGE".toList

/-- `GCodeToolSwitcher.parse_layers`: split the content on newlines and
collect the indices of lines containing the marker. -/
def parse_layers (gcode_content : List Char) : List ℕ × List (List Char) :=
  let lines := gcode_content.splitOn '\n'
  ((lines.enum.filter (fun e => decide (layer_markers <:+: e.2))).map Prod.fst, lines)

/-- `GCodeToolSwitcher.process_file` without the file handles: locate the
layers, plan the tool sequence, rewrite the lines; returns the written
lines and the caller-facing `(total_layers, tool_sequence)`. -/
def process_file (names : List (List Char)) (gcode_content : List Char)
    (ratio_pattern : List ℚ) : List (List Char) × ℕ × List ℕ :=
  let lp := (parse_layers gcode_content).1
  let lines := (parse_layers gcode_content).2
  let total_layers := lp.length
  let tool_sequence := calculate_tool_distribution total_layers ratio_pattern
  (modify_gcode names lp tool_sequence lines, total_layers, tool_sequence)

/-- Outcome of one conversion attempt in `App.process_gcode`: each error
constructor is one of the `messagebox.showerror` early returns, in source
order; only `ok` reads the input file and writes the output file. -/
inductive ProcOutcome where
  | errMissingPaths : ProcOutcome
  | errInputNotFound : ProcOutcome
  | errBadNumber : ProcOutcome
  | errZeroSum : ProcOutcome
  | ok : List (List Char) → ℕ → List ℕ → ProcOutcome
deriving DecidableEq

/-- `App.process_gcode`: the validation chain before any file processing.
`pattern?` is `None` when `get_current_pattern` failed to parse a float;
`input_exists` models `os.path.exists(input_file)`.  File contents are
consumed, and output produced, only in the `ok` branch. -/
def process_gcode (input_file output_file : List Char) (input_exists : Bool)
    (pattern? : Option (List ℚ)) (names : List (List Char))
    (gcode_content : List Char) : ProcOutcome :=
  if input_file = [] ∨ output_file = [] then .errMissingPaths
  else if input_exists = false then .errInputNotFound
  else
    match pattern? with
    | none => .errBadNumber
    | some pattern =>
        if pattern.sum ≤ 0 then .errZeroSum
        else
          let r := process_file names gcode_content pattern
          .ok r.1 r.2.1 r.2.2

/-! ## Per-line outcome and state lemmas -/

/-- Modelled from the spec: the reading of patterns 3-6 in which the edits
"accumulate, each later pattern operating on the line as already edited by
the earlier ones".  Identical to `processLine` except that the heater,
generic-token and leading-token blocks match against, and rewrite, the
current edited text instead of the original line. -/
def processLineAccum (names : List (List Char)) (ct : ℕ) (act : Option ℕ)
    (line : List Char) : List Char × Option ℕ :=
  if parkSearch line = true ∧ act = some ct then (annotPark names ct line, act)
  else
    match pickupStep names ct act line line with
    | .error fin => fin
    | .ok (m1, a1) =>
        match heaterStep names ct a1 m1 m1 with
        | .error fin => fin
        | .ok (m2, a2) =>
            let r := toolStep ct a2 m2 m2
            simpleStep ct r.2 r.1 r.1

/-- An output line that is a commented annotation of the original: it
starts with "; " and still contains the whole original line text. -/
def IsAnnotationOf (orig out : List Char) : Prop :=
  ∃ tail, out = "; ".toList ++ orig ++ tail

/-- An output line produced by one of the four tool-directed rewrites of
the loop body, computed from the original line. -/
def IsRewriteOf (names : List (List Char)) (ct : ℕ) (orig out : List Char) : Prop :=
  out = subAllT ct orig ∨ out = subWordT ct orig ∨ out = subStartT ct orig ∨
    ∃ old, m104Search orig = some old ∧ out = heaterCommand names ct old orig

/-- Every processed line is the original, a tool-directed rewrite of the
original, or a commented annotation that still contains the original. -/
def LineOutcome (names : List (List Char)) (orig out : List Char) : Prop :=
  out = orig ∨ IsAnnotationOf orig out ∨ ∃ ct, IsRewriteOf names ct orig out

/-- A small representative document for the idempotence analysis: a layer
marker, two pickup commands for tool 0, and a park command. -/
def sampleDoc : List (List Char) :=
  [";LAYER_CHANGE".toList, "T0 S1 L0 D0".toList, "T0 S1 L0 D0".toList,
    "P0 S1 L2 D0".toList]

/-- Tool names used with the sample document. -/
def sampleNames : List (List Char) := ["A".toList, "B".toList]

/-! ## Lemmas -/

lemma repeatAppend_eq (total idx : ℕ) : ∀ (m : ℕ) (acc : List ℕ),
    repeatAppend total idx m acc = acc ++ List.replicate (min m (total - acc.length)) idx := by
  intro m
  induction m with
  | zero => intro acc; simp [repeatAppend]
  | succ m ih =>
      intro acc
      rw [repeatAppend]
      by_cases h : acc.length < total
      · rw [if_pos h, ih]
        have hlen : (acc ++ [idx]).length = acc.length + 1 := by simp
        rw [hlen]
        have hmin : min m (total - (acc.length + 1)) + 1 = min (m + 1) (total - acc.length) := by
          omega
        rw [List.append_assoc, List.singleton_append, ← List.replicate_succ, hmin]
      · rw [if_neg h]
        have : total - acc.length = 0 := by omega
        simp [this]

lemma appendTool_eq (total idx : ℕ) (count : ℚ) (acc : List ℕ) :
    appendTool total idx count acc
      = acc ++ List.replicate (min (effCount count) (total - acc.length)) idx := by
  unfold appendTool effCount
  rw [repeatAppend_eq]
  set k := wholeReps count with hk
  by_cases hf : fracTest count
  · have hlen : (acc ++ List.replicate (min k (total - acc.length)) idx).length
        = acc.length + min k (total - acc.length) := by simp
    by_cases h2 : acc.length + min k (total - acc.length) < total
    · rw [if_pos ⟨hf, by rw [hlen]; exact h2⟩]
      have hmin : min k (total - acc.length) + 1 = min (k + 1) (total - acc.length) := by omega
      rw [List.append_assoc, ← List.replicate_succ', hmin]
      simp [hf]
    · rw [if_neg (by rw [hlen]; tauto)]
      have hmin : min k (total - acc.length) = min (k + 1) (total - acc.length) := by omega
      rw [hmin]
      simp [hf]
  · rw [if_neg (by tauto)]
    simp [hf]

lemma sweepSpec_eq_sweepFlat (p : List ℚ) : sweepSpec p = sweepFlat p.enum := rfl

lemma take_append_take (n : ℕ) (a b : List ℕ) :
    ((a.take n) ++ b).take n = (a ++ b).take n := by
  rcases le_or_lt a.length n with h | h
  · rw [List.take_all_of_le h]
  · have h1 : n ≤ (a.take n).length := by
      rw [List.length_take]; omega
    rw [List.take_append_of_le_length h1, List.take_take, min_self,
      List.take_append_of_le_length (le_of_lt h)]

lemma sweepGo_eq (total : ℕ) : ∀ (l : List (ℕ × ℚ)) (acc : List ℕ),
    acc.length ≤ total → sweepGo total l acc = (acc ++ sweepFlat l).take total := by
  intro l
  induction l with
  | nil =>
      intro acc hacc
      simp [sweepGo, sweepFlat, List.take_all_of_le hacc]
  | cons e rest ih =>
      intro acc hacc
      rw [sweepGo]
      have hflat : sweepFlat (e :: rest)
          = List.replicate (effCount e.2) e.1 ++ sweepFlat rest := by
        simp [sweepFlat]
      have hstep : appendTool total e.1 e.2 acc
          = (acc ++ List.replicate (effCount e.2) e.1).take total := by
        rw [appendTool_eq, List.take_append_eq_append_take,
          List.take_all_of_le hacc, List.take_replicate]
        rw [min_comm]
      by_cases hbr : total ≤ (appendTool total e.1 e.2 acc).length
      · rw [if_pos hbr]
        have hlen : total ≤ (acc ++ List.replicate (effCount e.2) e.1).length := by
          rw [hstep, List.length_take] at hbr
          omega
        rw [hstep, hflat, ← List.append_assoc,
          List.take_append_of_le_length hlen]
      · rw [if_neg hbr]
        have hle : (appendTool total e.1 e.2 acc).length ≤ total := by
          rw [hstep, List.length_take]; omega
        rw [ih _ hle, hstep, hflat, take_append_take, List.append_assoc]

lemma calcGo_eq (total : ℕ) (p : List ℚ) : ∀ (fuel : ℕ) (acc : List ℕ),
    acc.length ≤ total → total ≤ acc.length + fuel → 1 ≤ (sweepFlat p.enum).length →
    calcGo total p fuel acc
      = (acc ++ (List.replicate fuel (sweepFlat p.enum)).flatten).take total := by
  intro fuel
  induction fuel with
  | zero =>
      intro acc h1 h2 _
      have : acc.length = total := by omega
      simp [calcGo, List.take_all_of_le (le_of_eq this)]
  | succ fuel ih =>
      intro acc h1 h2 hS
      rw [calcGo]
      by_cases h : acc.length < total
      · rw [if_pos h, sweepGo_eq total _ _ h1]
        have hlen1 : ((acc ++ sweepFlat p.enum).take total).length
            = min total (acc.length + (sweepFlat p.enum).length) := by
          simp [List.length_take]
        have hA : ((acc ++ sweepFlat p.enum).take total).length ≤ total := by
          rw [hlen1]; omega
        have hB : total ≤ ((acc ++ sweepFlat p.enum).take total).length + fuel := by
          rw [hlen1]; omega
        rw [ih _ hA hB hS, take_append_take, List.append_assoc,
          List.replicate_succ, List.flatten_cons]
      · rw [if_neg h]
        have hacc : acc.length = total := by omega
        have : total ≤ acc.length := le_of_eq hacc.symm
        rw [List.take_append_of_le_length this, List.take_all_of_le (le_of_eq hacc)]

/-- Characterization of the planner: when the sweep is productive, the
result is the first `N` elements of the sweep repeated over and over. -/
lemma calc_eq_cycleTake (p : List ℚ) (N : ℕ) (hS : 1 ≤ (sweepSpec p).length) :
    calculate_tool_distribution N p = cycleTake (sweepSpec p) N := by
  unfold calculate_tool_distribution cycleTake
  rw [sweepSpec_eq_sweepFlat] at hS ⊢
  rw [calcGo_eq N p N [] (by simp) (by simp) hS]
  simp

lemma length_sweepSpec (p : List ℚ) : (sweepSpec p).length = (p.map effCount).sum := by
  unfold sweepSpec
  rw [List.length_flatten, List.map_map]
  have : (List.length ∘ fun e : ℕ × ℚ => List.replicate (effCount e.2) e.1)
      = effCount ∘ Prod.snd := by
    funext e; simp
  rw [this, ← List.map_map, List.enum_map_snd]

lemma sum_nonpos_of_forall_nonpos (p : List ℚ) (h : ∀ c ∈ p, c ≤ 0) : p.sum ≤ 0 := by
  induction p with
  | nil => simp
  | cons a t ih =>
      simp only [List.sum_cons]
      have ha := h a (by simp)
      have ht := ih (fun c hc => h c (by simp [hc]))
      linarith

lemma exists_pos_of_sum_pos (p : List ℚ) (hsum : 0 < p.sum) : ∃ c ∈ p, 0 < c := by
  by_contra hc
  push_neg at hc
  have := sum_nonpos_of_forall_nonpos p hc
  linarith

lemma effCount_pos_of_pos (c : ℚ) (hc : 0 < c) : 1 ≤ effCount c := by
  unfold effCount wholeReps
  by_cases hf : fracTest c
  · simp [hf]
  · unfold fracTest at hf
    push_neg at hf
    have h0 : Int.fract c = 0 := le_antisymm hf (Int.fract_nonneg c)
    have hfloor : (⌊c⌋ : ℚ) = c := by
      have := Int.self_sub_floor c
      rw [h0] at this
      linarith
    have : 0 < ⌊c⌋ := by
      by_contra hneg
      push_neg at hneg
      have : (⌊c⌋ : ℚ) ≤ 0 := by exact_mod_cast hneg
      linarith
    simp [hf]
    omega

lemma sweepSpec_length_pos (p : List ℚ) (hsum : 0 < p.sum) :
    1 ≤ (sweepSpec p).length := by
  obtain ⟨c, hmem, hpos⟩ := exists_pos_of_sum_pos p hsum
  rw [length_sweepSpec]
  have h1 : effCount c ∈ p.map effCount := List.mem_map_of_mem effCount hmem
  have h2 : effCount c ≤ (p.map effCount).sum :=
    List.single_le_sum (by intro x _; exact Nat.zero_le x) _ h1
  have := effCount_pos_of_pos c hpos
  omega

lemma length_cycleTake (sw : List ℕ) (n : ℕ) (hS : 1 ≤ sw.length) :
    (cycleTake sw n).length = n := by
  unfold cycleTake
  rw [List.length_take, List.length_flatten]
  have : (List.map List.length (List.replicate n sw)).sum = n * sw.length := by
    rw [List.map_replicate, List.sum_replicate, smul_eq_mul]
  rw [this]
  have : n ≤ n * sw.length := Nat.le_mul_of_pos_right n hS
  omega

lemma calc_length (p : List ℚ) (N : ℕ) (hsum : 0 < p.sum) :
    (calculate_tool_distribution N p).length = N := by
  rw [calc_eq_cycleTake p N (sweepSpec_length_pos p hsum),
    length_cycleTake _ _ (sweepSpec_length_pos p hsum)]

lemma calc_zero (p : List ℚ) : calculate_tool_distribution 0 p = [] := by
  rfl

lemma take_flatten_replicate (sw : List ℕ) (hS : 1 ≤ sw.length) (m : ℕ) :
    ∀ k, m ≤ k → ((List.replicate k sw).flatten).take m
      = ((List.replicate m sw).flatten).take m := by
  intro k hk
  have hrep : List.replicate k sw = List.replicate m sw ++ List.replicate (k - m) sw := by
    rw [← List.replicate_add]
    congr 1
    omega
  have hlen : m ≤ ((List.replicate m sw).flatten).length := by
    rw [List.length_flatten, List.map_replicate, List.sum_replicate, smul_eq_mul]
    exact le_trans (Nat.le_mul_of_pos_right m hS) (le_refl _)
  rw [hrep, List.flatten_append, List.take_append_of_le_length hlen]

lemma cycleTake_step (sw : List ℕ) (hS : 1 ≤ sw.length) (n : ℕ) (hn : sw.length ≤ n) :
    cycleTake sw n = sw ++ cycleTake sw (n - sw.length) := by
  unfold cycleTake
  have hpos : 1 ≤ n := le_trans hS hn
  have hrep : List.replicate n sw = sw :: List.replicate (n - 1) sw := by
    rw [← List.replicate_succ]
    congr 1
    omega
  rw [hrep, List.flatten_cons, List.take_append_eq_append_take,
    List.take_all_of_le hn]
  congr 1
  exact take_flatten_replicate sw hS (n - sw.length) (n - 1) (by omega)

lemma count_cycleTake_bound (sw : List ℕ) (hS : 1 ≤ sw.length) (t : ℕ) :
    ∀ n, |(sw.length : ℤ) * ((cycleTake sw n).count t) - n * (sw.count t)|
      ≤ (sw.length : ℤ) * sw.length := by
  intro n
  induction n using Nat.strong_induction_on with
  | _ n ih =>
      rcases lt_or_le n sw.length with hlt | hge
      · have hc1 : (cycleTake sw n).count t ≤ n := by
          refine le_trans (List.count_le_length t _) ?_
          unfold cycleTake
          rw [List.length_take]
          omega
        have hc2 : sw.count t ≤ sw.length := List.count_le_length t sw
        have hA : (sw.length : ℤ) * ((cycleTake sw n).count t) ≤ (sw.length : ℤ) * sw.length := by
          have : ((cycleTake sw n).count t : ℤ) ≤ (sw.length : ℤ) := by
            exact_mod_cast le_trans hc1 (le_of_lt hlt)
          exact mul_le_mul_of_nonneg_left this (by positivity)
        have hB : (n : ℤ) * (sw.count t) ≤ (sw.length : ℤ) * sw.length := by
          have h1 : (n : ℤ) ≤ (sw.length : ℤ) := by exact_mod_cast le_of_lt hlt
          have h2 : ((sw.count t : ℕ) : ℤ) ≤ (sw.length : ℤ) := by exact_mod_cast hc2
          calc (n : ℤ) * (sw.count t) ≤ (sw.length : ℤ) * (sw.count t) := by
                exact mul_le_mul_of_nonneg_right h1 (by positivity)
            _ ≤ (sw.length : ℤ) * sw.length := by
                exact mul_le_mul_of_nonneg_left h2 (by positivity)
        rw [abs_sub_le_iff]
        constructor
        · have : (0:ℤ) ≤ (n : ℤ) * (sw.count t) := by positivity
          linarith
        · have : (0:ℤ) ≤ (sw.length : ℤ) * ((cycleTake sw n).count t) := by positivity
          linarith
      · rw [cycleTake_step sw hS n hge, List.count_append]
        have hrec := ih (n - sw.length) (by omega)
        have hcast : ((n - sw.length : ℕ) : ℤ) = (n : ℤ) - sw.length := by
          omega
        have hkey : (sw.length : ℤ) * ((sw.count t) + ((cycleTake sw (n - sw.length)).count t))
            - (n : ℤ) * (sw.count t)
            = (sw.length : ℤ) * ((cycleTake sw (n - sw.length)).count t)
              - ((n - sw.length : ℕ) : ℤ) * (sw.count t) := by
          rw [hcast]; ring
        push_cast
        push_cast at hkey hrec
        rw [hkey]
        exact hrec

lemma mem_sweepSpec_lt (p : List ℚ) (t : ℕ) (h : t ∈ sweepSpec p) : t < p.length := by
  unfold sweepSpec at h
  rw [List.mem_flatten] at h
  obtain ⟨l, hl, htl⟩ := h
  rw [List.mem_map] at hl
  obtain ⟨e, he, hrepl⟩ := hl
  rw [← hrepl, List.mem_replicate] at htl
  rw [htl.2]
  exact (List.mem_enum he).1

lemma mem_calc_lt (p : List ℚ) (N t : ℕ) (hsum : 0 < p.sum)
    (h : t ∈ calculate_tool_distribution N p) : t < p.length := by
  rw [calc_eq_cycleTake p N (sweepSpec_length_pos p hsum)] at h
  unfold cycleTake at h
  have h2 := List.take_subset _ _ h
  rw [List.mem_flatten] at h2
  obtain ⟨l, hl, htl⟩ := h2
  rw [List.mem_replicate] at hl
  exact mem_sweepSpec_lt p t (hl.2 ▸ htl)

lemma effCount_one : effCount (1:ℚ) = 1 := by
  unfold effCount wholeReps fracTest
  norm_num

lemma effCount_three : effCount (3:ℚ) = 3 := by
  unfold effCount wholeReps fracTest
  norm_num
  rfl

lemma effCount_half : effCount ((1:ℚ)/2) = 1 := by
  unfold effCount wholeReps fracTest
  rw [show ⌊(1:ℚ)/2⌋ = 0 by norm_num]
  rw [if_pos (by rw [Int.fract]; norm_num)]
  rfl

lemma effCount_inv_two : effCount ((2:ℚ)⁻¹) = 1 := by
  rw [show ((2:ℚ)⁻¹) = (1:ℚ)/2 by norm_num]
  exact effCount_half

lemma sweepSpec_one_one : sweepSpec [1, 1] = [0, 1] := by
  simp [sweepSpec, List.enum, List.enumFrom, effCount_one]

lemma sweepSpec_half_half : sweepSpec [(1:ℚ)/2, 1/2] = [0, 1] := by
  simp [sweepSpec, List.enum, List.enumFrom, effCount_half, effCount_inv_two]

lemma sweepSpec_three_three : sweepSpec [3, 3] = [0, 0, 0, 1, 1, 1] := by
  simp [sweepSpec, List.enum, List.enumFrom, effCount_three]

lemma calc_four_one_one : calculate_tool_distribution 4 [1, 1] = [0, 1, 0, 1] := by
  rw [calc_eq_cycleTake _ _ (by rw [sweepSpec_one_one]; simp), sweepSpec_one_one]
  decide

lemma calc_four_half_half :
    calculate_tool_distribution 4 [(1:ℚ)/2, 1/2] = [0, 1, 0, 1] := by
  rw [calc_eq_cycleTake _ _ (by rw [sweepSpec_half_half]; simp), sweepSpec_half_half]
  decide

lemma calc_three_three_three :
    calculate_tool_distribution 3 [3, 3] = [0, 0, 0] := by
  rw [calc_eq_cycleTake _ _ (by rw [sweepSpec_three_three]; simp), sweepSpec_three_three]
  decide

lemma annotPark_contains (names : List (List Char)) (ct : ℕ) (line : List Char) :
    IsAnnotationOf line (annotPark names ct line) := by
  unfold IsAnnotationOf annotPark
  refine ⟨" - skipped parking as T".toList ++ (toString ct).toList ++ " (".toList
    ++ names.getD ct [] ++ ") is already active".toList, ?_⟩
  simp [List.append_assoc]

lemma annotPickup_contains (names : List (List Char)) (ct : ℕ) (line : List Char) :
    IsAnnotationOf line (annotPickup names ct line) := by
  unfold IsAnnotationOf annotPickup
  refine ⟨" - skipped pickup as T".toList ++ (toString ct).toList ++ " (".toList
    ++ names.getD ct [] ++ ") is already active".toList, ?_⟩
  simp [List.append_assoc]

lemma annotHeater_contains (names : List (List Char)) (ct : ℕ) (line : List Char) :
    IsAnnotationOf line (annotHeater names ct line) := by
  unfold IsAnnotationOf annotHeater
  refine ⟨" - skipped as T".toList ++ (toString ct).toList ++ " (".toList
    ++ names.getD ct [] ++ ") is already active".toList, ?_⟩
  simp [List.append_assoc]

lemma pickupStep_error_eq (names : List (List Char)) (ct : ℕ) (act : Option ℕ)
    (m line : List Char) (fin : List Char × Option ℕ)
    (h : pickupStep names ct act m line = .error fin) :
    fin = (annotPickup names ct line, act) := by
  unfold pickupStep at h
  split at h
  · simp at h
  · split_ifs at h <;> simp_all

lemma pickupStep_ok_cases (names : List (List Char)) (ct : ℕ) (act : Option ℕ)
    (m line : List Char) (m1 : List Char) (a1 : Option ℕ)
    (h : pickupStep names ct act m line = .ok (m1, a1)) :
    (m1 = m ∨ m1 = subAllT ct line) ∧
      (a1 = act ∨ (a1 = some ct ∧ (pickupSearch line).isSome)) := by
  unfold pickupStep at h
  split at h
  · simp at h
    exact ⟨Or.inl h.1.symm, Or.inl h.2.symm⟩
  · rename_i tp hfind
    split_ifs at h with h1 h2
    all_goals simp at h
    all_goals first
      | exact ⟨Or.inr h.1.symm, Or.inr ⟨h.2.symm, by simp [hfind]⟩⟩
      | exact ⟨Or.inl h.1.symm, Or.inr ⟨h.2.symm, by simp [hfind]⟩⟩

lemma heaterStep_error_eq (names : List (List Char)) (ct : ℕ) (act : Option ℕ)
    (m line : List Char) (fin : List Char × Option ℕ)
    (h : heaterStep names ct act m line = .error fin) :
    fin = (annotHeater names ct line, act) := by
  unfold heaterStep at h
  split at h
  · simp at h
  · split_ifs at h <;> simp_all

lemma heaterStep_ok_cases (names : List (List Char)) (ct : ℕ) (act : Option ℕ)
    (m line : List Char) (m1 : List Char) (a1 : Option ℕ)
    (h : heaterStep names ct act m line = .ok (m1, a1)) :
    (m1 = m ∨ ∃ old, m104Search line = some old ∧ m1 = heaterCommand names ct old line) ∧
      (a1 = act ∨ (a1 = some ct ∧ (m104Search line).isSome)) := by
  unfold heaterStep at h
  split at h
  · simp at h
    exact ⟨Or.inl h.1.symm, Or.inl h.2.symm⟩
  · rename_i old hfind
    split_ifs at h with h1 h2
    all_goals simp at h
    all_goals first
      | exact ⟨Or.inr ⟨old, hfind, h.1.symm⟩, Or.inr ⟨h.2.symm, by simp [hfind]⟩⟩
      | exact ⟨Or.inl h.1.symm, Or.inl h.2.symm⟩

lemma toolStep_cases (ct : ℕ) (act : Option ℕ) (m line : List Char) :
    ((toolStep ct act m line).1 = m ∨ (toolStep ct act m line).1 = subWordT ct line) ∧
      ((toolStep ct act m line).2 = act ∨
        ((toolStep ct act m line).2 = some ct ∧ (toolSearch line).isSome)) := by
  unfold toolStep
  split
  · exact ⟨Or.inl rfl, Or.inl rfl⟩
  · rename_i old hfind
    split_ifs with h1
    · exact ⟨Or.inr rfl, Or.inr ⟨rfl, by simp [hfind]⟩⟩
    · exact ⟨Or.inl rfl, Or.inl rfl⟩

lemma simpleStep_cases (ct : ℕ) (act : Option ℕ) (m line : List Char) :
    ((simpleStep ct act m line).1 = m ∨ (simpleStep ct act m line).1 = subStartT ct line) ∧
      ((simpleStep ct act m line).2 = act ∨
        ((simpleStep ct act m line).2 = some ct ∧ (simpleSearch line).isSome)) := by
  unfold simpleStep
  split
  · exact ⟨Or.inl rfl, Or.inl rfl⟩
  · rename_i old hfind
    split_ifs with h1
    · exact ⟨Or.inr rfl, Or.inr ⟨rfl, by simp [hfind]⟩⟩
    · exact ⟨Or.inl rfl, Or.inl rfl⟩

lemma processLine_outcome (names : List (List Char)) (ct : ℕ) (act : Option ℕ)
    (line : List Char) : LineOutcome names line (processLine names ct act line).1 := by
  unfold processLine
  split_ifs with hpark
  · exact Or.inr (Or.inl (annotPark_contains names ct line))
  · cases hp : pickupStep names ct act line line with
    | error fin =>
        dsimp only
        rw [pickupStep_error_eq names ct act line line fin hp]
        exact Or.inr (Or.inl (annotPickup_contains names ct line))
    | ok pr =>
        obtain ⟨m1, a1⟩ := pr
        dsimp only
        have hm1 := (pickupStep_ok_cases names ct act line line m1 a1 hp).1
        cases hh : heaterStep names ct a1 m1 line with
        | error fin =>
            dsimp only
            rw [heaterStep_error_eq names ct a1 m1 line fin hh]
            exact Or.inr (Or.inl (annotHeater_contains names ct line))
        | ok pr2 =>
            obtain ⟨m2, a2⟩ := pr2
            dsimp only
            have hm2 := (heaterStep_ok_cases names ct a1 m1 line m2 a2 hh).1
            have ht := (toolStep_cases ct a2 m2 line).1
            have hs := (simpleStep_cases ct (toolStep ct a2 m2 line).2
              (toolStep ct a2 m2 line).1 line).1
            rcases hs with hs | hs
            · rw [hs]
              rcases ht with ht | ht
              · rw [ht]
                rcases hm2 with hm2 | ⟨old, hfind, hcmd⟩
                · rw [hm2]
                  rcases hm1 with hm1 | hm1
                  · rw [hm1]; exact Or.inl rfl
                  · rw [hm1]; exact Or.inr (Or.inr ⟨ct, Or.inl rfl⟩)
                · rw [hcmd]
                  exact Or.inr (Or.inr ⟨ct, Or.inr (Or.inr (Or.inr ⟨old, hfind, rfl⟩))⟩)
              · rw [ht]
                exact Or.inr (Or.inr ⟨ct, Or.inr (Or.inl rfl)⟩)
            · rw [hs]
              exact Or.inr (Or.inr ⟨ct, Or.inr (Or.inr (Or.inl rfl))⟩)

lemma processLine_act (names : List (List Char)) (ct : ℕ) (act : Option ℕ)
    (line : List Char) :
    (processLine names ct act line).2 = act ∨
      ((processLine names ct act line).2 = some ct ∧
        ((pickupSearch line).isSome ∨ (m104Search line).isSome ∨
          (toolSearch line).isSome ∨ (simpleSearch line).isSome)) := by
  unfold processLine
  split_ifs with hpark
  · exact Or.inl rfl
  · cases hp : pickupStep names ct act line line with
    | error fin =>
        dsimp only
        rw [pickupStep_error_eq names ct act line line fin hp]
        exact Or.inl rfl
    | ok pr =>
        obtain ⟨m1, a1⟩ := pr
        dsimp only
        have ha1 := (pickupStep_ok_cases names ct act line line m1 a1 hp).2
        cases hh : heaterStep names ct a1 m1 line with
        | error fin =>
            dsimp only
            rw [heaterStep_error_eq names ct a1 m1 line fin hh]
            rcases ha1 with ha1 | ⟨ha1, hps⟩
            · exact Or.inl (by simpa using ha1)
            · exact Or.inr ⟨by simpa using ha1, Or.inl hps⟩
        | ok pr2 =>
            obtain ⟨m2, a2⟩ := pr2
            dsimp only
            have ha2 := (heaterStep_ok_cases names ct a1 m1 line m2 a2 hh).2
            have ht := (toolStep_cases ct a2 m2 line).2
            have hs := (simpleStep_cases ct (toolStep ct a2 m2 line).2
              (toolStep ct a2 m2 line).1 line).2
            rcases hs with hs | ⟨hs, hsome⟩
            · rw [hs]
              rcases ht with ht | ⟨ht, hsome⟩
              · rw [ht]
                rcases ha2 with ha2 | ⟨ha2, hsome⟩
                · rw [ha2]
                  rcases ha1 with ha1 | ⟨ha1, hsome⟩
                  · exact Or.inl ha1
                  · exact Or.inr ⟨ha1, Or.inl hsome⟩
                · exact Or.inr ⟨ha2, Or.inr (Or.inl hsome)⟩
              · exact Or.inr ⟨ht, Or.inr (Or.inr (Or.inl hsome))⟩
            · exact Or.inr ⟨hs, Or.inr (Or.inr (Or.inr hsome))⟩

lemma layerUpdate_act (layer_positions tool_sequence : List ℕ) (i : ℕ) (s : RState) :
    (layerUpdate layer_positions tool_sequence i s).act = s.act := by
  unfold layerUpdate
  split_ifs <;> rfl

lemma layerUpdate_not_mem (layer_positions tool_sequence : List ℕ) (i : ℕ) (s : RState)
    (h : i ∉ layer_positions) :
    layerUpdate layer_positions tool_sequence i s = s := by
  unfold layerUpdate
  rw [if_neg h]

lemma stepLine_curTool (names : List (List Char)) (layer_positions tool_sequence : List ℕ)
    (i : ℕ) (s : RState) (line : List Char) :
    (stepLine names layer_positions tool_sequence i s line).2.curTool
      = (layerUpdate layer_positions tool_sequence i s).curTool := by
  unfold stepLine
  cases h : (layerUpdate layer_positions tool_sequence i s).curTool <;> simp [h]

lemma stepLine_act (names : List (List Char)) (layer_positions tool_sequence : List ℕ)
    (i : ℕ) (s : RState) (line : List Char) :
    (stepLine names layer_positions tool_sequence i s line).2.act = s.act ∨
      ((stepLine names layer_positions tool_sequence i s line).2.act
          = (stepLine names layer_positions tool_sequence i s line).2.curTool ∧
        ((pickupSearch line).isSome ∨ (m104Search line).isSome ∨
          (toolSearch line).isSome ∨ (simpleSearch line).isSome)) := by
  unfold stepLine
  cases h : (layerUpdate layer_positions tool_sequence i s).curTool with
  | none =>
      simp only [h]
      exact Or.inl (layerUpdate_act layer_positions tool_sequence i s)
  | some ct =>
      simp only [h]
      rcases processLine_act names ct (layerUpdate layer_positions tool_sequence i s).act line
        with hact | ⟨hact, hsome⟩
      · exact Or.inl (by rw [hact, layerUpdate_act])
      · exact Or.inr ⟨by rw [hact], hsome⟩

lemma modifyGo_length (names : List (List Char)) (layer_positions tool_sequence : List ℕ) :
    ∀ (L : List (List Char)) (i : ℕ) (s : RState),
      (modifyGo names layer_positions tool_sequence i s L).length = L.length := by
  intro L
  induction L with
  | nil => intro i s; rfl
  | cons line rest ih => intro i s; simp [modifyGo, ih]

lemma stepLine_outcome (names : List (List Char)) (layer_positions tool_sequence : List ℕ)
    (i : ℕ) (s : RState) (line : List Char) :
    LineOutcome names line (stepLine names layer_positions tool_sequence i s line).1 := by
  unfold stepLine
  dsimp only
  cases h : (layerUpdate layer_positions tool_sequence i s).curTool with
  | none => exact Or.inl rfl
  | some ct =>
      exact processLine_outcome names ct (layerUpdate layer_positions tool_sequence i s).act line

lemma modifyGo_outcome (names : List (List Char)) (layer_positions tool_sequence : List ℕ) :
    ∀ (L : List (List Char)) (i : ℕ) (s : RState) (j : ℕ), j < L.length →
      LineOutcome names (L.getD j [])
        ((modifyGo names layer_positions tool_sequence i s L).getD j []) := by
  intro L
  induction L with
  | nil => intro i s j hj; exact absurd hj (by simp)
  | cons line rest ih =>
      intro i s j hj
      cases j with
      | zero =>
          simpa [modifyGo] using
            stepLine_outcome names layer_positions tool_sequence i s line
      | succ j =>
          simp only [modifyGo, List.getD_cons_succ]
          exact ih i.succ _ j (by simpa using hj)

lemma calc_two_one_one : calculate_tool_distribution 2 [1, 1] = [0, 1] := by
  rw [calc_eq_cycleTake _ _ (by rw [sweepSpec_one_one]; simp), sweepSpec_one_one]
  decide

lemma pickupStep_self (names : List (List Char)) (ct : ℕ) (act : Option ℕ)
    (m line : List Char)
    (hp : pickupSearch line = none ∨ pickupSearch line = some ct) :
    pickupStep names ct act m line = .error (annotPickup names ct line, act) ∨
      ∃ a1, pickupStep names ct act m line = .ok (m, a1) := by
  unfold pickupStep
  rcases hp with hp | hp <;> rw [hp]
  · exact Or.inr ⟨act, rfl⟩
  · dsimp only
    rw [if_neg (by simp)]
    by_cases ha : act = some ct
    · rw [if_pos ha]
      exact Or.inl rfl
    · rw [if_neg ha]
      exact Or.inr ⟨some ct, rfl⟩

lemma heaterStep_self (names : List (List Char)) (ct : ℕ) (act : Option ℕ)
    (m line : List Char)
    (hm : m104Search line = none ∨ m104Search line = some ct) :
    heaterStep names ct act m line = .ok (m, act) := by
  unfold heaterStep
  rcases hm with hm | hm <;> rw [hm]
  dsimp only
  rw [if_neg (by simp)]

lemma toolStep_self (ct : ℕ) (act : Option ℕ) (m line : List Char)
    (ht : toolSearch line = none ∨ toolSearch line = some ct) :
    toolStep ct act m line = (m, act) := by
  unfold toolStep
  rcases ht with ht | ht <;> rw [ht]
  dsimp only
  rw [if_neg (by simp)]

lemma simpleStep_self (ct : ℕ) (act : Option ℕ) (m line : List Char)
    (hs : simpleSearch line = none ∨ simpleSearch line = some ct) :
    simpleStep ct act m line = (m, act) := by
  unfold simpleStep
  rcases hs with hs | hs <;> rw [hs]
  dsimp only
  rw [if_neg (by simp)]

/-- On a line all of whose recognized tool captures already name the
current tool, the loop body never substitutes a tool token: the line is
left unchanged or annotated. -/
lemma processLine_no_toggle (names : List (List Char)) (ct : ℕ) (act : Option ℕ)
    (line : List Char)
    (hp : pickupSearch line = none ∨ pickupSearch line = some ct)
    (hm : m104Search line = none ∨ m104Search line = some ct)
    (ht : toolSearch line = none ∨ toolSearch line = some ct)
    (hs : simpleSearch line = none ∨ simpleSearch line = some ct) :
    (processLine names ct act line).1 = line ∨
      IsAnnotationOf line (processLine names ct act line).1 := by
  unfold processLine
  split_ifs with hpark
  · exact Or.inr (annotPark_contains names ct line)
  · rcases pickupStep_self names ct act line line hp with hperr | ⟨a1, hpok⟩
    · rw [hperr]
      exact Or.inr (annotPickup_contains names ct line)
    · rw [hpok]
      dsimp only
      rw [heaterStep_self names ct a1 line line hm]
      dsimp only
      rw [toolStep_self ct a1 line line ht]
      dsimp only
      rw [simpleStep_self ct a1 line line hs]
      exact Or.inl rfl

/-! ## The claims -/

/-- C1.  For every ratio pattern of non-negative numbers with sum > 0 and
every target layer count N, `calculate_tool_distribution` builds its output
by repeatedly sweeping the pattern from tool index 0 to last, appending each
tool id floor(count) times plus one additional instance when count has a
nonzero fractional part, truncating the instant the sequence reaches length
N even mid-tool, and repeating the full sweep until length N is reached
(`cycleTake (sweepSpec p) N`); in particular pattern [1,1] with N=4 yields
[0,1,0,1] and pattern [0.5,0.5] with N=4 yields [0,1,0,1]. -/
theorem claim1_planner_sweep :
    (∀ (p : List ℚ) (N : ℕ), (∀ c ∈ p, 0 ≤ c) → 0 < p.sum →
        calculate_tool_distribution N p = cycleTake (sweepSpec p) N) ∧
    calculate_tool_distribution 4 [1, 1] = [0, 1, 0, 1] ∧
    calculate_tool_distribution 4 [(1:ℚ)/2, 1/2] = [0, 1, 0, 1] :=
  ⟨fun p N _ hsum => calc_eq_cycleTake p N (sweepSpec_length_pos p hsum),
    calc_four_one_one, calc_four_half_half⟩

/-- Witness for C1 at pattern [1,1], N = 4. -/
theorem claim1_planner_sweep_witness :
    calculate_tool_distribution 4 [1, 1] = cycleTake (sweepSpec [1, 1]) 4 :=
  claim1_planner_sweep.1 [1, 1] 4 (by norm_num [List.forall_mem_cons])
    (by norm_num [List.sum_cons, List.sum_nil])

/-- C2.  For every ratio pattern of non-negative numbers with sum > 0 and
every N, `calculate_tool_distribution` terminates with a sequence of exactly
length N; for N = 0 the result is empty regardless of the pattern. -/
theorem claim2_planner_exact_length :
    (∀ (p : List ℚ) (N : ℕ), (∀ c ∈ p, 0 ≤ c) → 0 < p.sum →
        (calculate_tool_distribution N p).length = N) ∧
    ∀ (p : List ℚ), calculate_tool_distribution 0 p = [] :=
  ⟨fun p N _ hsum => calc_length p N hsum, fun p => calc_zero p⟩

/-- Witness for C2 at pattern [1,1], N = 5. -/
theorem claim2_planner_exact_length_witness :
    (calculate_tool_distribution 5 [1, 1]).length = 5 :=
  claim2_planner_exact_length.1 [1, 1] 5 (by norm_num [List.forall_mem_cons])
    (by norm_num [List.sum_cons, List.sum_nil])

/-- C3.  For every input line sequence, LayerPositions list and
ToolSequence, `modify_gcode` returns exactly one output line per input
line, and each output line is the input line unchanged, one of the four
tool-directed rewrites of it, or a commented annotation that still contains
the whole original line text. -/
theorem claim3_rewriter_shape (names : List (List Char))
    (layer_positions tool_sequence : List ℕ) (L : List (List Char)) :
    (modify_gcode names layer_positions tool_sequence L).length = L.length ∧
    ∀ j, j < L.length →
      LineOutcome names (L.getD j [])
        ((modify_gcode names layer_positions tool_sequence L).getD j []) :=
  ⟨modifyGo_length names layer_positions tool_sequence L 0 _,
    fun j hj => modifyGo_outcome names layer_positions tool_sequence L 0 _ j hj⟩

/-- Witness for C3 on a two-line document. -/
theorem claim3_rewriter_shape_witness :
    LineOutcome ["A".toList]
      (([";LAYER_CHANGE".toList, "T1 S1 L0 D0".toList] : List (List Char)).getD 1 [])
      ((modify_gcode ["A".toList] [0] [0]
        [";LAYER_CHANGE".toList, "T1 S1 L0 D0".toList]).getD 1 []) :=
  (claim3_rewriter_shape ["A".toList] [0] [0]
    [";LAYER_CHANGE".toList, "T1 S1 L0 D0".toList]).2 1 (by decide)

/-- C4 counterexample.  The line "T1;" matches only the leading-line
tool-token form (pattern 6), yet processing it with `current_tool = 0`
changes `active_tool` from unset to `some 0` - refuting the claim that the
pattern-6 rewrites never alter `active_tool`. -/
theorem claim4_counterexample :
    (processLine [] 0 none ("T1;".toList)).2 = some 0 ∧
    parkSearch ("T1;".toList) = false ∧
    pickupSearch ("T1;".toList) = none ∧
    m104Search ("T1;".toList) = none ∧
    toolSearch ("T1;".toList) = none ∧
    simpleSearch ("T1;".toList) = some 1 ∧
    some 0 ≠ (none : Option ℕ) := by
  decide

/-- C4 amended.  Throughout every `modify_gcode` pass, `current_tool`
changes only at an index listed in LayerPositions; `active_tool` changes
only to the current tool, and only on a line matched by the pickup,
heater-preselect, generic tool-token or leading tool-token pattern - the
pattern-6 rewrites do set `active_tool = current_tool`. -/
theorem claim4_state_invariant_amended (names : List (List Char))
    (layer_positions tool_sequence : List ℕ) (i : ℕ) (s : RState) (line : List Char) :
    ((stepLine names layer_positions tool_sequence i s line).2.curTool ≠ s.curTool →
        i ∈ layer_positions) ∧
    ((stepLine names layer_positions tool_sequence i s line).2.act = s.act ∨
      ((stepLine names layer_positions tool_sequence i s line).2.act
          = (stepLine names layer_positions tool_sequence i s line).2.curTool ∧
        ((pickupSearch line).isSome ∨ (m104Search line).isSome ∨
          (toolSearch line).isSome ∨ (simpleSearch line).isSome))) := by
  constructor
  · intro h
    by_contra hmem
    exact h (by rw [stepLine_curTool, layerUpdate_not_mem _ _ _ _ hmem])
  · exact stepLine_act names layer_positions tool_sequence i s line

/-- Witness for the amended C4: a concrete step whose tool change happens
at a layer-marker index. -/
theorem claim4_state_invariant_amended_witness : (0 : ℕ) ∈ [0] :=
  (claim4_state_invariant_amended [] [0] [5] 0 ⟨-1, none, none⟩ ("x".toList)).1
    (by decide)

/-- C5.  When a line matches the heater-preselect form `M104.1 T<id>` with
the named tool different from `current_tool` and `active_tool` different
from `current_tool` (and no other recognized command form matches the
line), the loop body replaces the line with a command targeting
`current_tool` that preserves an existing P parameter (default "120"),
preserves an existing Q parameter (default P-value + current_tool + 1),
preserves an existing S parameter (default "210"), appends the original
trailing comment when one existed and otherwise synthesizes a comment
stating the switch, and sets `active_tool = current_tool`. -/
theorem claim5_heater_rewrite (names : List (List Char)) (ct : ℕ) (act : Option ℕ)
    (line : List Char) (old : ℕ)
    (hm : m104Search line = some old) (hold : old ≠ ct) (hact : act ≠ some ct)
    (hpark : parkSearch line = false) (hpick : pickupSearch line = none)
    (htool : toolSearch line = none) (hsimple : simpleSearch line = none) :
    processLine names ct act line =
      (let p_value := (paramSearch 'P' line).getD "120".toList
       let q_value := (paramSearch 'Q' line).getD
         (toString (digitsToNat p_value + ct + 1)).toList
       let s_value := (paramSearch 'S' line).getD "210".toList
       let newCmd := "M104.1 T".toList ++ (toString ct).toList ++ " P".toList ++ p_value
         ++ " Q".toList ++ q_value ++ " S".toList ++ s_value
       match commentSearch line with
       | some cm => newCmd ++ [' '] ++ cm
       | none => newCmd ++ " ; switched from T".toList ++ (toString old).toList
           ++ " (".toList ++ names.getD old [] ++ ") to T".toList ++ (toString ct).toList
           ++ " (".toList ++ names.getD ct [] ++ ")".toList,
       some ct) := by
  unfold processLine
  rw [if_neg (by simp [hpark])]
  unfold pickupStep
  rw [hpick]
  dsimp only
  unfold heaterStep
  rw [hm]
  dsimp only
  rw [if_pos hold, if_pos hact]
  dsimp only
  rw [toolStep_self ct (some ct) (heaterCommand names ct old line) line (Or.inl htool)]
  dsimp only
  rw [simpleStep_self ct (some ct) (heaterCommand names ct old line) line (Or.inl hsimple)]
  unfold heaterCommand
  rfl

/-- Witness for C5 on the line "M104.1 T1 P100 ; hi" with current tool 0. -/
theorem claim5_heater_rewrite_witness :
    processLine ["Cyan".toList, "Magenta".toList] 0 none
      ("M104.1 T1 P100 ; hi".toList) =
      ("M104.1 T0 P100 Q101 S210 ; hi".toList, some 0) :=
  (claim5_heater_rewrite ["Cyan".toList, "Magenta".toList] 0 none
    ("M104.1 T1 P100 ; hi".toList) 1 (by decide) (by decide) (by decide)
    (by decide) (by decide) (by decide) (by decide)).trans (by decide)

/-- C6.  For every ratio pattern whose sum is not positive, the conversion
is rejected before any file processing: the result is never the `ok`
outcome (so no output is written and the input content is never consumed),
and when the earlier path/existence/parse guards pass the surfaced error is
precisely the distinct zero-pattern error. -/
theorem claim6_zero_sum_rejected (input_file output_file : List Char)
    (input_exists : Bool) (p : List ℚ) (names : List (List Char))
    (gcode_content : List Char) (hsum : p.sum ≤ 0) :
    (∀ out total seq,
      process_gcode input_file output_file input_exists (some p) names gcode_content
        ≠ ProcOutcome.ok out total seq) ∧
    (input_file ≠ [] → output_file ≠ [] → input_exists = true →
      process_gcode input_file output_file input_exists (some p) names gcode_content
        = ProcOutcome.errZeroSum) := by
  constructor
  · intro out total seq
    unfold process_gcode
    by_cases h1 : input_file = [] ∨ output_file = []
    · rw [if_pos h1]
      simp
    · rw [if_neg h1]
      by_cases h2 : input_exists = false
      · rw [if_pos h2]
        simp
      · rw [if_neg h2]
        dsimp only
        rw [if_pos hsum]
        simp
  · intro hin hout hex
    unfold process_gcode
    rw [if_neg (by simp [hin, hout]), if_neg (by simp [hex])]
    dsimp only
    rw [if_pos hsum]

/-- Witness for C6 with the all-zero two-tool pattern. -/
theorem claim6_zero_sum_rejected_witness :
    process_gcode ("i".toList) ("o".toList) true (some [0, 0]) [] []
      = ProcOutcome.errZeroSum :=
  (claim6_zero_sum_rejected ("i".toList) ("o".toList) true [0, 0] [] []
    (by norm_num [List.sum_cons, List.sum_nil])).2 (by decide) (by decide) rfl

/-- C7 counterexample.  For the non-negative pattern [3,3] (sum 6 > 0) and
N = 3 the planner returns [0,0,0]: tool 1 receives 0 layers while its share
is N/2 = 1.5, so the count deviates from N times the share by 1.5 layers -
refuting the claimed +-1 bound. -/
theorem claim7_counterexample :
    (∀ c ∈ ([3, 3] : List ℚ), 0 ≤ c) ∧ 0 < ([3, 3] : List ℚ).sum ∧
    calculate_tool_distribution 3 [3, 3] = [0, 0, 0] ∧
    ¬ (|(((calculate_tool_distribution 3 [3, 3]).count 1 : ℚ))
        - 3 * (([3, 3] : List ℚ).getD 1 0 / ([3, 3] : List ℚ).sum)| ≤ 1) := by
  refine ⟨by norm_num [List.forall_mem_cons],
    by norm_num [List.sum_cons, List.sum_nil], calc_three_three_three, ?_⟩
  rw [calc_three_three_three]
  rw [show (([0, 0, 0] : List ℕ).count 1 : ℚ) = 0 by norm_num,
    show (([3, 3] : List ℚ).getD 1 0) = 3 by norm_num [List.getD],
    show (([3, 3] : List ℚ).sum) = 6 by norm_num [List.sum_cons, List.sum_nil]]
  rw [show (0:ℚ) - 3 * (3 / 6) = -(3/2) by norm_num, abs_neg,
    abs_of_nonneg (by norm_num : (0:ℚ) ≤ 3/2)]
  norm_num

/-- C7 amended.  For every non-negative ratio pattern with positive sum the
planner returns a sequence of exact length N whose per-tool count tracks
the tool's share of one effective sweep (floor plus fractional round-up),
not the raw ratio share: with S the sweep length and e_t the tool's count
in one sweep, |S * count_t - N * e_t| <= S^2, so count_t / N converges to
e_t / S as N grows; the raw-share +-1 bound of the claim does not hold. -/
theorem claim7_share_bound_amended (p : List ℚ) (t N : ℕ)
    (hnn : ∀ c ∈ p, 0 ≤ c) (hsum : 0 < p.sum) :
    (calculate_tool_distribution N p).length = N ∧
    |((sweepSpec p).length : ℤ) * ((calculate_tool_distribution N p).count t)
        - (N : ℤ) * ((sweepSpec p).count t)|
      ≤ ((sweepSpec p).length : ℤ) * (sweepSpec p).length := by
  have hS := sweepSpec_length_pos p hsum
  refine ⟨calc_length p N hsum, ?_⟩
  rw [calc_eq_cycleTake p N hS]
  exact count_cycleTake_bound (sweepSpec p) hS t N

/-- Witness for the amended C7 at pattern [1,1], t = 0, N = 7. -/
theorem claim7_share_bound_amended_witness :
    (calculate_tool_distribution 7 [1, 1]).length = 7 ∧
    |((sweepSpec [1, 1]).length : ℤ) * ((calculate_tool_distribution 7 [1, 1]).count 0)
        - (7 : ℤ) * ((sweepSpec [1, 1]).count 0)|
      ≤ ((sweepSpec [1, 1]).length : ℤ) * (sweepSpec [1, 1]).length :=
  claim7_share_bound_amended [1, 1] 0 7 (by norm_num [List.forall_mem_cons])
    (by norm_num [List.sum_cons, List.sum_nil])

/-- C8 counterexample.  Rewriting the already-rewritten sample document a
second time with the same LayerPositions and ToolSequence is NOT the
single-pass output with skip-annotations on every formerly-rewritten
command: the first formerly-rewritten pickup (index 1) is left without any
annotation, while the park skip-annotation (index 3), which was not a
rewritten command, changes again (it receives a second annotation). -/
theorem claim8_counterexample :
    (modify_gcode sampleNames [0] [1] sampleDoc).getD 1 []
        = (modify_gcode sampleNames [0] [1]
            (modify_gcode sampleNames [0] [1] sampleDoc)).getD 1 [] ∧
    (modify_gcode sampleNames [0] [1] sampleDoc).getD 1 [] ≠ sampleDoc.getD 1 [] ∧
    (modify_gcode sampleNames [0] [1]
        (modify_gcode sampleNames [0] [1] sampleDoc)).getD 3 []
      ≠ (modify_gcode sampleNames [0] [1] sampleDoc).getD 3 [] := by
  decide

/-- C8 amended.  Re-running `modify_gcode` on its own output with the same
LayerPositions and ToolSequence never toggles tools back (a line whose
recognized captures all name the current tool is only kept or annotated,
never substituted), but the result is not the single-pass output modulo
skip-annotations: on the sample document the second pass keeps the first
rewritten pickup unchanged, skip-annotates the redundant one, and annotates
the already-annotated park line a second time. -/
theorem claim8_idempotence_amended :
    (modify_gcode sampleNames [0] [1] sampleDoc =
      [";LAYER_CHANGE".toList, "T1 S1 L0 D0".toList, "T1 S1 L0 D0".toList,
        "; P0 S1 L2 D0 - skipped parking as T1 (B) is already active".toList]) ∧
    (modify_gcode sampleNames [0] [1] (modify_gcode sampleNames [0] [1] sampleDoc) =
      [";LAYER_CHANGE".toList, "T1 S1 L0 D0".toList,
        "; T1 S1 L0 D0 - skipped pickup as T1 (B) is already active".toList,
        ("; ; P0 S1 L2 D0 - skipped parking as T1 (B) is already active"
          ++ " - skipped parking as T1 (B) is already active").toList]) ∧
    ∀ (names : List (List Char)) (ct : ℕ) (act : Option ℕ) (line : List Char),
      (pickupSearch line = none ∨ pickupSearch line = some ct) →
      (m104Search line = none ∨ m104Search line = some ct) →
      (toolSearch line = none ∨ toolSearch line = some ct) →
      (simpleSearch line = none ∨ simpleSearch line = some ct) →
      (processLine names ct act line).1 = line ∨
        IsAnnotationOf line (processLine names ct act line).1 := by
  refine ⟨by decide, by decide, ?_⟩
  intro names ct act line hp hm ht hs
  exact processLine_no_toggle names ct act line hp hm ht hs

/-- Witness for the amended C8: the redundant pickup line is annotated, not
substituted. -/
theorem claim8_idempotence_amended_witness :
    (processLine sampleNames 1 (some 1) ("T1 S1 L0 D0".toList)).1
        = "T1 S1 L0 D0".toList ∨
      IsAnnotationOf ("T1 S1 L0 D0".toList)
        (processLine sampleNames 1 (some 1) ("T1 S1 L0 D0".toList)).1 :=
  claim8_idempotence_amended.2.2 sampleNames 1 (some 1) ("T1 S1 L0 D0".toList)
    (by decide) (by decide) (by decide) (by decide)

/-- C9 counterexample.  The line "T0 S1 L0 D0 ; XT5" with current tool 2
matches both the pickup form and the generic tool-token form; the code
computes every edit from the original line and lets the last matching
pattern overwrite (yielding "T2 S1 L0 D0 ; XT5"), whereas accumulating the
edits - each later pattern operating on the already-edited line, as the
claim states - yields "T2 S1 L0 D0 ; XT2". -/
theorem claim9_counterexample :
    processLine [] 2 none ("T0 S1 L0 D0 ; XT5".toList)
        = ("T2 S1 L0 D0 ; XT5".toList, some 2) ∧
    processLineAccum [] 2 none ("T0 S1 L0 D0 ; XT5".toList)
        = ("T2 S1 L0 D0 ; XT2".toList, some 2) ∧
    (processLine [] 2 none ("T0 S1 L0 D0 ; XT5".toList)).1
      ≠ (processLineAccum [] 2 none ("T0 S1 L0 D0 ; XT5".toList)).1 := by
  decide

/-- C9 amended.  Outside the three early exits the patterns are checked in
order 3-4-5-6, but each pattern matches against and rewrites the ORIGINAL
line text, and the last matching pattern's rewrite overwrites the earlier
ones instead of accumulating: when both the pickup and the generic
tool-token patterns fire (and the heater and leading-token patterns do
not), the result is the generic-token substitution of the original line. -/
theorem claim9_last_write_amended (names : List (List Char)) (ct : ℕ)
    (act : Option ℕ) (line : List Char) (tp old : ℕ)
    (hpark : parkSearch line = false)
    (hp : pickupSearch line = some tp) (htp : tp ≠ ct)
    (hm : m104Search line = none)
    (ht : toolSearch line = some old) (hold : old ≠ ct)
    (hs : simpleSearch line = none) :
    processLine names ct act line = (subWordT ct line, some ct) := by
  unfold processLine
  rw [if_neg (by simp [hpark])]
  unfold pickupStep
  rw [hp]
  dsimp only
  rw [if_pos htp]
  dsimp only
  rw [heaterStep_self names ct (some ct) (subAllT ct line) line (Or.inl hm)]
  dsimp only
  unfold toolStep
  rw [ht]
  dsimp only
  rw [if_pos hold]
  dsimp only
  rw [simpleStep_self ct (some ct) (subWordT ct line) line (Or.inl hs)]

/-- Witness for the amended C9 on "T0 S1 L0 D0 ; XT5" with current tool 2. -/
theorem claim9_last_write_amended_witness :
    processLine [] 2 none ("T0 S1 L0 D0 ; XT5".toList)
      = (subWordT 2 ("T0 S1 L0 D0 ; XT5".toList), some 2) :=
  claim9_last_write_amended [] 2 none ("T0 S1 L0 D0 ; XT5".toList) 0 0
    (by decide) (by decide) (by decide) (by decide) (by decide) (by decide)
    (by decide)

/-- C10.  For every non-negative ratio pattern with positive sum and every
N, every element of the planned tool sequence is a valid index into the
pattern; hence when the pattern length equals the number of configured
tools every `tool_names` lookup on a planned tool stays in bounds. -/
theorem claim10_tool_ids_in_range (p : List ℚ) (N t : ℕ)
    (hnn : ∀ c ∈ p, 0 ≤ c) (hsum : 0 < p.sum)
    (hmem : t ∈ calculate_tool_distribution N p) :
    t < p.length ∧
      ∀ (tool_names : List (List Char)), tool_names.length = p.length →
        t < tool_names.length := by
  have h := mem_calc_lt p N t hsum hmem
  exact ⟨h, fun tool_names hlen => by rw [hlen]; exact h⟩

/-- Witness for C10 at pattern [1,1], N = 2, element 0. -/
theorem claim10_tool_ids_in_range_witness :
    (0 : ℕ) < ([1, 1] : List ℚ).length ∧
      ∀ (tool_names : List (List Char)),
        tool_names.length = ([1, 1] : List ℚ).length → (0 : ℕ) < tool_names.length :=
  claim10_tool_ids_in_range [1, 1] 2 0 (by norm_num [List.forall_mem_cons])
    (by norm_num [List.sum_cons, List.sum_nil])
    (by rw [calc_two_one_one]; decide)

end CMYK
